import Mathlib

/-!
Shallow embedding of `src/tiny_assembler.py` (class `DNAAssembler`), plus the
theorems settling the specification claims about it.

Sequences are Python strings, embedded as `List Char`.  Python operations that
can raise (`s[i]` out of range, `max()` of an empty iterable) are embedded as
`Option`-valued functions, `none` standing for the raised exception.
-/

namespace TinyAssembler

abbrev Seq := List Char

/-- Python indexing `s[i]`: a negative index counts from the end, an index out
of range raises (`none`). -/
def pyGet (s : Seq) (i : ℤ) : Option Char :=
  let j : ℤ := if i < 0 then (s.length : ℤ) + i else i
  if 0 ≤ j ∧ j < (s.length : ℤ) then s[j.toNat]? else none

/-- Python `range(a, b)` over integers: the list `[a, a+1, ..., b-1]`, empty
when `b ≤ a`. -/
def intRange (a b : ℤ) : List ℤ :=
  (List.range (b - a).toNat).map (fun i : ℕ => a + (i : ℤ))

/-- Lower bound of the position range scanned by `DNAAssembler.score`:
`max(0 - offset, 0)`. -/
def scoreLo (offset : ℤ) : ℤ := max (0 - offset) 0

/-- Upper bound of the position range scanned by `DNAAssembler.score`:
`min(len(sequence2) - offset, len(sequence2), len(sequence1) - offset)`. -/
def scoreHi (sequence1 sequence2 : Seq) (offset : ℤ) : ℤ :=
  min (min ((sequence2.length : ℤ) - offset) ((sequence2.length : ℤ)))
    ((sequence1.length : ℤ) - offset)

/-- The positions iterated by the generator inside `DNAAssembler.score`. -/
def scorePositions (sequence1 sequence2 : Seq) (offset : ℤ) : List ℤ :=
  intRange (scoreLo offset) (scoreHi sequence1 sequence2 offset)

/-- One comparison `sequence2[position] == sequence1[position + offset]`;
`none` models an IndexError from either indexing. -/
def cmpAt (sequence1 sequence2 : Seq) (offset position : ℤ) : Option Bool :=
  match pyGet sequence2 position, pyGet sequence1 (position + offset) with
  | some c2, some c1 => some (c2 == c1)
  | _, _ => none

/-- `DNAAssembler.score`: counts the positions in the scanned range where the
two sequences agree; `none` if any indexing raises (it never does, see
`score_total`). -/
def score (sequence1 sequence2 : Seq) (offset : ℤ) : Option ℕ :=
  ((scorePositions sequence1 sequence2 offset).mapM
      (cmpAt sequence1 sequence2 offset)).map
    (fun bs => (bs.filter id).length)

/-- The (always defined) value of `score`. -/
def scoreNat (sequence1 sequence2 : Seq) (offset : ℤ) : ℕ :=
  ((scorePositions sequence1 sequence2 offset).filter
    (fun p => cmpAt sequence1 sequence2 offset p == some true)).length

/-- The 4-tuple `(score, offset, sequence2, sequence1)` built by
`find_best_offset`; `seq2` is the matched sequence, `seq1` the base one. -/
structure Match where
  score : ℕ
  offset : ℤ
  seq2 : Seq
  seq1 : Seq
deriving DecidableEq, Repr

/-- The Python comparison key of a `Match`: tuples compare lexicographically,
strings compare lexicographically by character. -/
def key (m : Match) : ℕ ×ₗ (ℤ ×ₗ (Seq ×ₗ Seq)) :=
  toLex (m.score, toLex (m.offset, toLex (m.seq2, m.seq1)))

/-- Python `max` seeded with a first element: scan the rest, replacing the
current maximum only on strict improvement (ties keep the earlier element). -/
def pyMax : Match → List Match → Match
  | m, [] => m
  | m, x :: xs => pyMax (if key m < key x then x else m) xs

/-- Python `max` of a list of matches; `none` models the ValueError raised on
an empty iterable. -/
def pyMaxList : List Match → Option Match
  | [] => none
  | x :: xs => some (pyMax x xs)

/-- `DNAAssembler.find_best_offset`: scan every offset in
`range(1 - len(sequence2), len(sequence1))` and take the max tuple. -/
def find_best_offset (sequence1 sequence2 : Seq) : Option Match :=
  ((intRange (1 - (sequence2.length : ℤ)) ((sequence1.length : ℤ))).mapM
      (fun offset => (score sequence1 sequence2 offset).map
        (fun s => Match.mk s offset sequence2 sequence1))) >>= pyMaxList

/-- `DNAAssembler.find_best_match`: best offset against every candidate that
differs from `sequence`, max over the resulting tuples. -/
def find_best_match (sequence : Seq) (others : List Seq) : Option Match :=
  ((others.filter (fun sequence2 => sequence2 != sequence)).mapM
      (fun sequence2 => find_best_offset sequence sequence2)) >>= pyMaxList

/-- Python slice-bound normalization for `s[a:b]` on a sequence of length `n`:
negative bounds count from the end, then both are clamped into `[0, n]`. -/
def pySliceIdx (n : ℕ) (i : ℤ) : ℕ :=
  if i < 0 then (max ((n : ℤ) + i) 0).toNat else min i.toNat n

/-- Python `s[a:b]` (step 1): the elements with normalized indices in
`[a', b')`; empty when the range is inverted, never an error. -/
def pySlice (s : Seq) (a b : ℤ) : Seq :=
  (s.drop (pySliceIdx s.length a)).take (pySliceIdx s.length b - pySliceIdx s.length a)

/-- `DNAAssembler.consensus`:
`sequence2[0:max(0, offset)] + sequence1 + sequence2[len(sequence1)+offset:]`. -/
def consensus (score : ℕ) (offset : ℤ) (sequence1 sequence2 : Seq) : Seq :=
  pySlice sequence2 0 (max 0 offset) ++ sequence1 ++
    pySlice sequence2 ((sequence1.length : ℤ) + offset) ((sequence2.length : ℤ))

/-- `DNAAssembler.assemble`, with explicit fuel standing for the recursion
depth (the callers pass `others.length`, which the recursion never exhausts;
`none` models a propagated exception). -/
def assembleF : ℕ → Seq → List Seq → Option Seq
  | 0, _, _ => none
  | fuel + 1, sequence, others =>
    if others.length = 1 then
      (find_best_match sequence others).map
        (fun m => consensus m.score m.offset m.seq2 m.seq1)
    else
      (find_best_match sequence others).bind
        (fun m => assembleF fuel (consensus m.score m.offset m.seq2 m.seq1)
          (others.filter (fun y => y != m.seq2)))

/-- `DNAAssembler.assemble` instrumented with the list of matched sequences
removed at each merge step, in order. -/
def assembleSteps : ℕ → Seq → List Seq → Option (Seq × List Seq)
  | 0, _, _ => none
  | fuel + 1, sequence, others =>
    if others.length = 1 then
      (find_best_match sequence others).map
        (fun m => (consensus m.score m.offset m.seq2 m.seq1, [m.seq2]))
    else
      (find_best_match sequence others).bind
        (fun m => (assembleSteps fuel (consensus m.score m.offset m.seq2 m.seq1)
            (others.filter (fun y => y != m.seq2))).map
          (fun r => (r.1, m.seq2 :: r.2)))

/-- The `(current, remaining)` states visited by `DNAAssembler.assemble`,
starting from the given seed state. -/
def runStates : ℕ → Seq → List Seq → List (Seq × List Seq)
  | 0, sequence, others => [(sequence, others)]
  | fuel + 1, sequence, others =>
    (sequence, others) ::
      (if others.length = 1 then []
       else
        match find_best_match sequence others with
        | none => []
        | some m => runStates fuel (consensus m.score m.offset m.seq2 m.seq1)
            (others.filter (fun y => y != m.seq2)))

/-- `DNAAssembler.assemble_helper`: seed the recursion with `reads[0]` and
`reads[1:]` (`none` models the IndexError on an empty pool). -/
def assemble_helper (reads : List Seq) : Option Seq :=
  match reads with
  | [] => none
  | r :: rs => assembleF rs.length r rs

/-- Stated from the spec sentence behind claim C3 ("counts positions where
both sequences are defined and equal"): the number of positions `p` in range
for `sequence2` whose shifted index `p + offset` is in range for `sequence1`,
with exact character equality. -/
def specAgreeCount (sequence1 sequence2 : Seq) (offset : ℤ) : ℕ :=
  ((List.range sequence2.length).filter
    (fun p : ℕ => decide (0 ≤ (p : ℤ) + offset) &&
      decide ((p : ℤ) + offset < (sequence1.length : ℤ)) &&
      (pyGet sequence2 (p : ℤ) == pyGet sequence1 ((p : ℤ) + offset)))).length

/-- Like `specAgreeCount`, but additionally requiring the shifted index to be
below `len(sequence2)` — the extra truncation imposed by the
`len(sequence2) - offset` term in the code's range bound. -/
def specAgreeCountTrunc (sequence1 sequence2 : Seq) (offset : ℤ) : ℕ :=
  ((List.range sequence2.length).filter
    (fun p : ℕ => decide (0 ≤ (p : ℤ) + offset) &&
      decide ((p : ℤ) + offset < (sequence1.length : ℤ)) &&
      decide ((p : ℤ) + offset < (sequence2.length : ℤ)) &&
      (pyGet sequence2 (p : ℤ) == pyGet sequence1 ((p : ℤ) + offset)))).length

/-! ### Basic lemmas about the Python primitives -/

theorem mem_intRange {a b x : ℤ} : x ∈ intRange a b ↔ a ≤ x ∧ x < b := by
  simp only [intRange, List.mem_map, List.mem_range]
  constructor
  · rintro ⟨i, hi, rfl⟩; omega
  · rintro ⟨h1, h2⟩; exact ⟨(x - a).toNat, by omega, by omega⟩

theorem length_intRange (a b : ℤ) : (intRange a b).length = (b - a).toNat := by
  simp [intRange]

theorem intRange_nodup (a b : ℤ) : (intRange a b).Nodup :=
  List.Nodup.map (fun i j h => by omega) (List.nodup_range _)

theorem scoreLo_nonneg (offset : ℤ) : 0 ≤ scoreLo offset := le_max_right _ _

theorem sub_le_scoreLo (offset : ℤ) : 0 - offset ≤ scoreLo offset := le_max_left _ _

theorem scoreHi_le_len2 (s1 s2 : Seq) (offset : ℤ) :
    scoreHi s1 s2 offset ≤ (s2.length : ℤ) :=
  le_trans (min_le_left _ _) (min_le_right _ _)

theorem scoreHi_le_len2_sub (s1 s2 : Seq) (offset : ℤ) :
    scoreHi s1 s2 offset ≤ (s2.length : ℤ) - offset :=
  le_trans (min_le_left _ _) (min_le_left _ _)

theorem scoreHi_le_len1_sub (s1 s2 : Seq) (offset : ℤ) :
    scoreHi s1 s2 offset ≤ (s1.length : ℤ) - offset :=
  min_le_right _ _

/-- Every position scanned by `score` is in range for both sequences (and,
because of the extra `len(sequence2) - offset` term in the upper bound, the
shifted index is also below `len(sequence2)`). -/
theorem scorePositions_bounds {s1 s2 : Seq} {offset p : ℤ}
    (h : p ∈ scorePositions s1 s2 offset) :
    0 ≤ p ∧ p < (s2.length : ℤ) ∧ 0 ≤ p + offset ∧
      p + offset < (s1.length : ℤ) ∧ p + offset < (s2.length : ℤ) := by
  rcases mem_intRange.mp h with ⟨hlo, hhi⟩
  have h1 := le_trans (scoreLo_nonneg offset) hlo
  have h2 := le_trans (sub_le_scoreLo offset) hlo
  have h3 := lt_of_lt_of_le hhi (scoreHi_le_len2 s1 s2 offset)
  have h4 := lt_of_lt_of_le hhi (scoreHi_le_len2_sub s1 s2 offset)
  have h5 := lt_of_lt_of_le hhi (scoreHi_le_len1_sub s1 s2 offset)
  exact ⟨h1, h3, by omega, by omega, by omega⟩

theorem pyGet_eq_some {s : Seq} {i : ℤ} (h0 : 0 ≤ i) (h1 : i < (s.length : ℤ)) :
    ∃ c, pyGet s i = some c ∧ s[i.toNat]? = some c := by
  have hn : i.toNat < s.length := by omega
  have hni : ¬i < 0 := not_lt.mpr h0
  refine ⟨s[i.toNat], ?_, List.getElem?_eq_getElem hn⟩
  simp only [pyGet, hni, if_false]
  rw [if_pos (show 0 ≤ i ∧ i < (s.length : ℤ) from ⟨h0, h1⟩)]
  exact List.getElem?_eq_getElem hn

theorem cmpAt_isSome {s1 s2 : Seq} {offset p : ℤ}
    (hb : 0 ≤ p ∧ p < (s2.length : ℤ) ∧ 0 ≤ p + offset ∧ p + offset < (s1.length : ℤ)) :
    ∃ b, cmpAt s1 s2 offset p = some b := by
  obtain ⟨c2, hc2, -⟩ := pyGet_eq_some hb.1 hb.2.1
  obtain ⟨c1, hc1, -⟩ := pyGet_eq_some hb.2.2.1 hb.2.2.2
  exact ⟨c2 == c1, by simp [cmpAt, hc2, hc1]⟩

theorem mapM_some_of_forall {α β : Type} (f : α → Option β) (g : α → β) :
    ∀ l : List α, (∀ x ∈ l, f x = some (g x)) → l.mapM f = some (l.map g)
  | [], _ => rfl
  | x :: xs, h => by
    rw [List.mapM_cons, h x (by simp),
      mapM_some_of_forall f g xs (fun y hy => h y (by simp [hy]))]
    rfl

theorem mapM_cmp_count (s1 s2 : Seq) (offset : ℤ) :
    ∀ l : List ℤ, (∀ p ∈ l, ∃ b, cmpAt s1 s2 offset p = some b) →
      ∃ bs, l.mapM (cmpAt s1 s2 offset) = some bs ∧
        (bs.filter id).length =
          (l.filter (fun p => cmpAt s1 s2 offset p == some true)).length
  | [], _ => ⟨[], rfl, rfl⟩
  | p :: l, h => by
    obtain ⟨b, hb⟩ := h p (by simp)
    obtain ⟨bs, h1, h2⟩ :=
      mapM_cmp_count s1 s2 offset l (fun q hq => h q (by simp [hq]))
    refine ⟨b :: bs, by rw [List.mapM_cons, hb, h1]; rfl, ?_⟩
    cases b <;> simp [List.filter, hb, h2]

/-- `score` never hits an out-of-range index: it always returns `scoreNat`. -/
theorem score_eq_scoreNat (s1 s2 : Seq) (offset : ℤ) :
    score s1 s2 offset = some (scoreNat s1 s2 offset) := by
  obtain ⟨bs, h1, h2⟩ := mapM_cmp_count s1 s2 offset
    (scorePositions s1 s2 offset)
    (fun p hp => cmpAt_isSome (by
      have := scorePositions_bounds hp
      exact ⟨this.1, this.2.1, this.2.2.1, this.2.2.2.1⟩))
  have hs : score s1 s2 offset =
      ((scorePositions s1 s2 offset).mapM (cmpAt s1 s2 offset)).map
        (fun bs => (bs.filter id).length) := rfl
  rw [hs, h1, Option.map_some', h2]
  rfl

theorem scoreNat_le_positions (s1 s2 : Seq) (offset : ℤ) :
    scoreNat s1 s2 offset ≤ (scoreHi s1 s2 offset - scoreLo offset).toNat := by
  have := List.length_filter_le
    (fun p => cmpAt s1 s2 offset p == some true) (scorePositions s1 s2 offset)
  simpa [scoreNat, scorePositions, length_intRange] using this

theorem scoreNat_le_min (s1 s2 : Seq) (offset : ℤ) :
    scoreNat s1 s2 offset ≤ min s1.length s2.length := by
  have h := scoreNat_le_positions s1 s2 offset
  have h1 := scoreHi_le_len2 s1 s2 offset
  have h2 := scoreHi_le_len1_sub s1 s2 offset
  have h3 := scoreLo_nonneg offset
  have h4 := sub_le_scoreLo offset
  omega

/-- When either sequence is empty the scanned position range is empty, so the
score is 0. -/
theorem scoreNat_of_empty {s1 s2 : Seq} (h : s1 = [] ∨ s2 = []) (offset : ℤ) :
    scoreNat s1 s2 offset = 0 := by
  rcases h with rfl | rfl
  · have h2 := scoreHi_le_len1_sub [] s2 offset
    have h4 := sub_le_scoreLo offset
    have h5 := scoreNat_le_positions [] s2 offset
    simp only [List.length_nil, Nat.cast_zero] at h2
    omega
  · have h1 := scoreHi_le_len2 s1 [] offset
    have h3 := scoreLo_nonneg offset
    have h5 := scoreNat_le_positions s1 [] offset
    simp only [List.length_nil, Nat.cast_zero] at h1
    omega

/-! ### Lemmas about the Python `max` over match tuples -/

theorem pyMax_mem (l : List Match) : ∀ m, pyMax m l = m ∨ pyMax m l ∈ l := by
  induction l with
  | nil => intro m; exact Or.inl rfl
  | cons x xs ih =>
    intro m
    simp only [pyMax]
    rcases ih (if key m < key x then x else m) with h | h
    · rw [h]
      split_ifs with hc
      · exact Or.inr (List.mem_cons_self _ _)
      · exact Or.inl rfl
    · exact Or.inr (List.mem_cons_of_mem _ h)

theorem pyMax_ge_seed (l : List Match) : ∀ m, key m ≤ key (pyMax m l) := by
  induction l with
  | nil => intro m; exact le_refl _
  | cons x xs ih =>
    intro m
    simp only [pyMax]
    refine le_trans ?_ (ih _)
    split_ifs with hc
    · exact le_of_lt hc
    · exact le_refl _

theorem pyMax_ge_mem (l : List Match) : ∀ m y, y ∈ l → key y ≤ key (pyMax m l) := by
  induction l with
  | nil => intro m y hy; cases hy
  | cons x xs ih =>
    intro m y hy
    simp only [pyMax]
    rcases List.mem_cons.mp hy with rfl | hy
    · refine le_trans ?_ (pyMax_ge_seed xs _)
      split_ifs with hc
      · exact le_refl _
      · exact le_of_not_lt hc
    · exact ih _ y hy

theorem pyMaxList_spec {l : List Match} (h : l ≠ []) :
    ∃ m, pyMaxList l = some m ∧ m ∈ l ∧ ∀ y ∈ l, key y ≤ key m := by
  match l, h with
  | x :: xs, _ =>
    refine ⟨pyMax x xs, rfl, ?_, ?_⟩
    · rcases pyMax_mem xs x with h | h
      · rw [h]; exact List.mem_cons_self _ _
      · exact List.mem_cons_of_mem _ h
    · intro y hy
      rcases List.mem_cons.mp hy with rfl | hy
      · exact pyMax_ge_seed xs y
      · exact pyMax_ge_mem xs x y hy

theorem pyMaxList_mem : ∀ {l : List Match} {m : Match}, pyMaxList l = some m → m ∈ l
  | [], m, h => by cases h
  | x :: xs, m, h => by
    have hx : pyMax x xs = m := by simpa [pyMaxList] using h
    rcases pyMax_mem xs x with h2 | h2
    · rw [hx] at h2; rw [← h2]; exact List.mem_cons_self _ _
    · rw [hx] at h2; exact List.mem_cons_of_mem _ h2

/-! ### Characterization of `find_best_offset` -/

theorem fbo_eq_pyMaxList (s1 s2 : Seq) :
    find_best_offset s1 s2 = pyMaxList
      ((intRange (1 - (s2.length : ℤ)) ((s1.length : ℤ))).map
        (fun offset => Match.mk (scoreNat s1 s2 offset) offset s2 s1)) := by
  have h := mapM_some_of_forall
    (fun offset => (score s1 s2 offset).map (fun s => Match.mk s offset s2 s1))
    (fun offset => Match.mk (scoreNat s1 s2 offset) offset s2 s1)
    (intRange (1 - (s2.length : ℤ)) ((s1.length : ℤ)))
    (fun off _ => by simp only [score_eq_scoreNat, Option.map_some'])
  show ((intRange _ _).mapM _) >>= pyMaxList = _
  rw [h]
  rfl

/-- Every match returned by `find_best_offset` records the two input
sequences, an offset inside the scanned range, and the score at that
offset. -/
theorem fbo_fields {s1 s2 : Seq} {m : Match} (h : find_best_offset s1 s2 = some m) :
    m.seq1 = s1 ∧ m.seq2 = s2 ∧
      1 - (s2.length : ℤ) ≤ m.offset ∧ m.offset < (s1.length : ℤ) ∧
      m.score = scoreNat s1 s2 m.offset := by
  rw [fbo_eq_pyMaxList] at h
  obtain ⟨off, hoff, rfl⟩ := List.mem_map.mp (pyMaxList_mem h)
  have h2 := mem_intRange.mp hoff
  exact ⟨rfl, rfl, h2.1, h2.2, rfl⟩

/-- Full characterization of a successful `find_best_offset`: the result is
the maximum, under the tuple key, of the matches at all scanned offsets. -/
theorem fbo_spec (s1 s2 : Seq) (hne : 1 - (s2.length : ℤ) < (s1.length : ℤ)) :
    ∃ m, find_best_offset s1 s2 = some m ∧ m.seq1 = s1 ∧ m.seq2 = s2 ∧
      (1 - (s2.length : ℤ) ≤ m.offset ∧ m.offset < (s1.length : ℤ)) ∧
      m.score = scoreNat s1 s2 m.offset ∧
      ∀ offset : ℤ, 1 - (s2.length : ℤ) ≤ offset → offset < (s1.length : ℤ) →
        key (Match.mk (scoreNat s1 s2 offset) offset s2 s1) ≤ key m := by
  rw [fbo_eq_pyMaxList]
  have hmem : (1 - (s2.length : ℤ)) ∈ intRange (1 - (s2.length : ℤ)) ((s1.length : ℤ)) :=
    mem_intRange.mpr ⟨le_refl _, hne⟩
  have hl : (intRange (1 - (s2.length : ℤ)) ((s1.length : ℤ))).map
      (fun offset => Match.mk (scoreNat s1 s2 offset) offset s2 s1) ≠ [] :=
    List.ne_nil_of_mem (List.mem_map_of_mem _ hmem)
  obtain ⟨m, h1, h2, h3⟩ := pyMaxList_spec hl
  obtain ⟨off, hoff, rfl⟩ := List.mem_map.mp h2
  have hoff2 := mem_intRange.mp hoff
  refine ⟨_, h1, rfl, rfl, ⟨hoff2.1, hoff2.2⟩, rfl, ?_⟩
  intro offset ho1 ho2
  exact h3 _ (List.mem_map_of_mem _ (mem_intRange.mpr ⟨ho1, ho2⟩))

theorem fbo_isSome {s1 s2 : Seq} (h1 : s1 ≠ []) (h2 : s2 ≠ []) :
    ∃ m, find_best_offset s1 s2 = some m := by
  have l1 : 0 < s1.length := List.length_pos.mpr h1
  have l2 : 0 < s2.length := List.length_pos.mpr h2
  obtain ⟨m, hm, -⟩ := fbo_spec s1 s2 (by omega)
  exact ⟨m, hm⟩

/-! ### Extraction lemmas for the tuple key order -/

theorem key_le_score {a b : Match} (h : key a ≤ key b) : a.score ≤ b.score :=
  Prod.Lex.monotone_fst _ _ h

theorem key_le_offset {a b : Match} (hs : a.score = b.score) (h : key a ≤ key b) :
    a.offset ≤ b.offset := by
  rcases (Prod.Lex.le_iff _ _).mp h with hlt | ⟨-, hrest⟩
  · exact absurd hs (by simp only [key] at hlt; omega)
  · exact Prod.Lex.monotone_fst _ _ hrest

/-! ### Length of `consensus` -/

theorem pySliceIdx_le (n : ℕ) (i : ℤ) : pySliceIdx n i ≤ n := by
  unfold pySliceIdx; split_ifs <;> omega

theorem length_pySlice (s : Seq) (a b : ℤ) :
    (pySlice s a b).length = pySliceIdx s.length b - pySliceIdx s.length a := by
  have ha := pySliceIdx_le s.length a
  have hb := pySliceIdx_le s.length b
  simp only [pySlice, List.length_take, List.length_drop]
  omega

theorem length_consensus (s : ℕ) (offset : ℤ) (A B : Seq)
    (h1 : 1 - (A.length : ℤ) ≤ offset) (h2 : offset ≤ (B.length : ℤ) - 1) :
    ((consensus s offset A B).length : ℤ)
      = max 0 offset + (A.length : ℤ)
        + max 0 ((B.length : ℤ) - ((A.length : ℤ) + offset)) := by
  simp only [consensus, List.length_append, length_pySlice]
  unfold pySliceIdx
  split_ifs <;> push_cast <;> omega

/-! ### Characterization of `find_best_match` -/

theorem mapM_some_spec {α β : Type} (f : α → Option β) :
    ∀ l : List α, (∀ x ∈ l, ∃ y, f x = some y) →
      ∃ ys, l.mapM f = some ys ∧ ys.length = l.length ∧
        (∀ y ∈ ys, ∃ x ∈ l, f x = some y) ∧
        (∀ x ∈ l, ∀ y, f x = some y → y ∈ ys)
  | [], _ => ⟨[], rfl, rfl, by simp, by simp⟩
  | x :: xs, h => by
    obtain ⟨y, hy⟩ := h x (by simp)
    obtain ⟨ys, h1, h2, h3, h4⟩ := mapM_some_spec f xs (fun z hz => h z (by simp [hz]))
    refine ⟨y :: ys, ?_, by simp [h2], ?_, ?_⟩
    · rw [List.mapM_cons, hy, h1]; rfl
    · intro z hz
      rcases List.mem_cons.mp hz with rfl | hz
      · exact ⟨x, by simp, hy⟩
      · obtain ⟨w, hw1, hw2⟩ := h3 z hz
        exact ⟨w, by simp [hw1], hw2⟩
    · intro z hz w hw
      rcases List.mem_cons.mp hz with rfl | hz
      · have he : y = w := by rw [hy] at hw; exact Option.some.inj hw
        rw [← he]; exact List.mem_cons_self _ _
      · exact List.mem_cons_of_mem _ (h4 z hz w hw)

/-- If, after excluding the candidates equal to `sequence`, no candidate
remains, `find_best_match` raises (returns `none`). -/
theorem fbm_none {sequence : Seq} {others : List Seq}
    (hfilter : others.filter (fun c => c != sequence) = []) :
    find_best_match sequence others = none := by
  show ((others.filter (fun c => c != sequence)).mapM _) >>= pyMaxList = none
  rw [hfilter]
  rfl

/-- A successful `find_best_match` returns the key-maximum of the best-offset
matches over the candidates differing from `sequence`. -/
theorem fbm_spec (sequence : Seq) (others : List Seq)
    (hne : others.filter (fun c => c != sequence) ≠ [])
    (hall : ∀ c ∈ others.filter (fun c => c != sequence),
      ∃ m, find_best_offset sequence c = some m) :
    ∃ m, find_best_match sequence others = some m ∧
      (∃ c ∈ others.filter (fun c => c != sequence), find_best_offset sequence c = some m) ∧
      (∀ c ∈ others.filter (fun c => c != sequence), ∀ m2,
        find_best_offset sequence c = some m2 → key m2 ≤ key m) := by
  obtain ⟨ys, h1, h2, h3, h4⟩ := mapM_some_spec _ _ hall
  have hys : ys ≠ [] := by
    intro hcon
    rw [hcon] at h2
    exact hne (List.length_eq_zero.mp h2.symm)
  obtain ⟨m, hm1, hm2, hm3⟩ := pyMaxList_spec hys
  refine ⟨m, ?_, h3 m hm2, ?_⟩
  · show ((others.filter (fun c => c != sequence)).mapM _) >>= pyMaxList = some m
    rw [h1]
    exact hm1
  · intro c hc m2 hm2b
    exact hm3 m2 (h4 c hc m2 hm2b)

theorem filter_bne_eq_self {sequence : Seq} {others : List Seq} (h : sequence ∉ others) :
    others.filter (fun c => c != sequence) = others :=
  List.filter_eq_self.mpr (fun c hc => bne_iff_ne.mpr (fun he => h (he ▸ hc)))

theorem filter_bne_of_all_eq {sequence : Seq} {others : List Seq}
    (h : ∀ c ∈ others, c = sequence) :
    others.filter (fun c => c != sequence) = [] :=
  List.filter_eq_nil.mpr (fun c hc => by simp [h c hc])

/-- Removing the matched sequence by value from a duplicate-free list removes
exactly one element, and the rest is a permutation. -/
theorem perm_filter_bne {a : Seq} : ∀ {l : List Seq}, l.Nodup → a ∈ l →
    l.Perm (a :: l.filter (fun y => y != a)) := by
  intro l
  induction l with
  | nil => intro _ ha; cases ha
  | cons x xs ih =>
    intro hnd ha
    by_cases hx : x = a
    · subst hx
      have hxs : x ∉ xs := (List.nodup_cons.mp hnd).1
      rw [List.filter_cons, if_neg (by simp), filter_bne_eq_self hxs]
    · have ha2 : a ∈ xs := by
        rcases List.mem_cons.mp ha with h | h
        · exact absurd h.symm hx
        · exact h
      have ih2 := ih (List.nodup_cons.mp hnd).2 ha2
      rw [List.filter_cons, if_pos (bne_iff_ne.mpr hx)]
      exact (ih2.cons x).trans (List.Perm.swap a x _)

/-! ### The greedy reduction -/

theorem consensus_ne_nil (s : ℕ) (offset : ℤ) {A : Seq} (hA : A ≠ []) (B : Seq) :
    consensus s offset A B ≠ [] := by
  intro h
  have h1 := (List.append_eq_nil.mp h).1
  exact hA (List.append_eq_nil.mp h1).2

/-- `assemble` computes the first component of the instrumented recursion. -/
theorem assembleF_eq_steps : ∀ (fuel : ℕ) (sequence : Seq) (others : List Seq),
    assembleF fuel sequence others = (assembleSteps fuel sequence others).map Prod.fst := by
  intro fuel
  induction fuel with
  | zero => intro _ _; rfl
  | succ fuel ih =>
    intro sequence others
    simp only [assembleF, assembleSteps]
    split_ifs with hlen
    · cases find_best_match sequence others <;> rfl
    · cases hm : find_best_match sequence others with
      | none => rfl
      | some m =>
        simp only [Option.some_bind]
        rw [ih]
        cases assembleSteps fuel (consensus m.score m.offset m.seq2 m.seq1)
          (others.filter (fun y => y != m.seq2)) <;> rfl

/-- Core induction for the greedy reducer: with a duplicate-free pool of
non-empty reads whose intermediate consensus never collides with a remaining
read, the reduction succeeds, performs one merge per remaining read, and the
matched reads are a permutation of the remaining pool. -/
theorem assembleSteps_total : ∀ (fuel : ℕ) (sequence : Seq) (others : List Seq),
    fuel = others.length → others ≠ [] → sequence ≠ [] →
    (∀ c ∈ others, c ≠ []) → others.Nodup →
    (∀ st ∈ runStates fuel sequence others, st.1 ∉ st.2) →
    ∃ s ms, assembleSteps fuel sequence others = some (s, ms) ∧
      ms.length = others.length ∧ ms.Perm others := by
  intro fuel
  induction fuel with
  | zero =>
    intro sequence others hf ho _ _ _ _
    exact absurd (List.length_eq_zero.mp hf.symm) ho
  | succ fuel ih =>
    intro sequence others hf ho hs hne hnd hst
    have hseq_not : sequence ∉ others := by
      have := hst (sequence, others) (by simp only [runStates]; exact List.mem_cons_self _ _)
      simpa using this
    have hfilter : others.filter (fun c => c != sequence) = others := filter_bne_eq_self hseq_not
    have hfne : others.filter (fun c => c != sequence) ≠ [] := by rw [hfilter]; exact ho
    have hall : ∀ c ∈ others.filter (fun c => c != sequence),
        ∃ m, find_best_offset sequence c = some m := by
      intro c hc
      rw [hfilter] at hc
      exact fbo_isSome hs (hne c hc)
    obtain ⟨m, hm, ⟨c, hc, hcm⟩, -⟩ := fbm_spec sequence others hfne hall
    rw [hfilter] at hc
    have hmseq2 : m.seq2 = c := (fbo_fields hcm).2.1
    have hmem : m.seq2 ∈ others := by rw [hmseq2]; exact hc
    by_cases hlen : others.length = 1
    · obtain ⟨a, ha⟩ := List.length_eq_one.mp hlen
      subst ha
      refine ⟨consensus m.score m.offset m.seq2 m.seq1, [m.seq2], ?_, by simpa using hlen.symm, ?_⟩
      · simp only [assembleSteps, if_pos hlen, hm, Option.map_some']
      · have hca : c = a := by simpa using hc
        rw [hmseq2, hca]
    · have hperm : others.Perm (m.seq2 :: others.filter (fun y => y != m.seq2)) :=
        perm_filter_bne hnd hmem
      have hrestlen : others.length = (others.filter (fun y => y != m.seq2)).length + 1 := by
        simpa using hperm.length_eq
      have hfq : fuel = (others.filter (fun y => y != m.seq2)).length := by omega
      have hrne : others.filter (fun y => y != m.seq2) ≠ [] := by
        intro hcon
        rw [hcon] at hrestlen
        simp at hrestlen
        omega
      have hsne : consensus m.score m.offset m.seq2 m.seq1 ≠ [] :=
        consensus_ne_nil _ _ (hne _ hmem) _
      have hrsub : ∀ x ∈ others.filter (fun y => y != m.seq2), x ∈ others :=
        fun x hx => (List.filter_sublist others).subset hx
    -- states of the recursive run are states of this run
      have hstrec : ∀ st ∈ runStates fuel (consensus m.score m.offset m.seq2 m.seq1)
          (others.filter (fun y => y != m.seq2)), st.1 ∉ st.2 := by
        intro st hstm
        apply hst
        simp only [runStates, if_neg hlen, hm]
        exact List.mem_cons_of_mem _ hstm
      obtain ⟨s, ms, h1, h2, h3⟩ := ih (consensus m.score m.offset m.seq2 m.seq1)
        (others.filter (fun y => y != m.seq2)) hfq hrne hsne
        (fun x hx => hne x (hrsub x hx)) (List.Nodup.filter _ hnd) hstrec
      refine ⟨s, m.seq2 :: ms, ?_, ?_, ?_⟩
      · simp only [assembleSteps, if_neg hlen, hm, Option.some_bind, h1, Option.map_some']
      · simp only [List.length_cons, h2]
        omega
      · exact (h3.cons m.seq2).trans hperm.symm

/-! ### The score as a truncated agreement count (for claim C3) -/

theorem cmpAt_true_eq {s1 s2 : Seq} {offset p : ℤ}
    (hb : 0 ≤ p ∧ p < (s2.length : ℤ) ∧ 0 ≤ p + offset ∧ p + offset < (s1.length : ℤ)) :
    (cmpAt s1 s2 offset p == some true) = (pyGet s2 p == pyGet s1 (p + offset)) := by
  obtain ⟨c2, hc2, -⟩ := pyGet_eq_some hb.1 hb.2.1
  obtain ⟨c1, hc1, -⟩ := pyGet_eq_some hb.2.2.1 hb.2.2.2
  simp [cmpAt, hc2, hc1]

theorem scoreNat_eq_trunc (s1 s2 : Seq) (offset : ℤ) :
    scoreNat s1 s2 offset = specAgreeCountTrunc s1 s2 offset := by
  have hcast : Function.Injective (fun i : ℕ => (i : ℤ)) := Nat.cast_injective
  have nd1 : ((scorePositions s1 s2 offset).filter
      (fun p => cmpAt s1 s2 offset p == some true)).Nodup :=
    List.Nodup.filter _ (intRange_nodup _ _)
  have nd2 : (((List.range s2.length).map (fun i : ℕ => (i : ℤ))).filter
      (fun x => decide (0 ≤ x + offset) && decide (x + offset < (s1.length : ℤ)) &&
        decide (x + offset < (s2.length : ℤ)) &&
        (pyGet s2 x == pyGet s1 (x + offset)))).Nodup :=
    List.Nodup.filter _ (List.Nodup.map hcast (List.nodup_range _))
  have hsets : ((scorePositions s1 s2 offset).filter
        (fun p => cmpAt s1 s2 offset p == some true)).toFinset
      = (((List.range s2.length).map (fun i : ℕ => (i : ℤ))).filter
        (fun x => decide (0 ≤ x + offset) && decide (x + offset < (s1.length : ℤ)) &&
          decide (x + offset < (s2.length : ℤ)) &&
          (pyGet s2 x == pyGet s1 (x + offset)))).toFinset := by
    apply Finset.ext
    intro x
    simp only [List.mem_toFinset, List.mem_filter, List.mem_map, List.mem_range,
      Bool.and_eq_true, decide_eq_true_eq]
    constructor
    · rintro ⟨hmem, hP⟩
      have hb := scorePositions_bounds hmem
      rw [cmpAt_true_eq ⟨hb.1, hb.2.1, hb.2.2.1, hb.2.2.2.1⟩] at hP
      exact ⟨⟨x.toNat, by omega, by omega⟩, ⟨⟨hb.2.2.1, hb.2.2.2.1⟩, hb.2.2.2.2⟩, hP⟩
    · rintro ⟨⟨i, hi, rfl⟩, ⟨⟨h1, h2⟩, h3⟩, h4⟩
      have hb4 : 0 ≤ (i : ℤ) ∧ (i : ℤ) < (s2.length : ℤ) ∧ 0 ≤ (i : ℤ) + offset ∧
          (i : ℤ) + offset < (s1.length : ℤ) := ⟨by omega, by omega, h1, h2⟩
      have hmem : ((i : ℕ) : ℤ) ∈ scorePositions s1 s2 offset := by
        refine mem_intRange.mpr ⟨?_, ?_⟩ <;> · simp only [scoreLo, scoreHi]; omega
      exact ⟨hmem, by rw [cmpAt_true_eq hb4]; exact h4⟩
  calc scoreNat s1 s2 offset
      = ((scorePositions s1 s2 offset).filter
          (fun p => cmpAt s1 s2 offset p == some true)).toFinset.card :=
        (List.toFinset_card_of_nodup nd1).symm
    _ = (((List.range s2.length).map (fun i : ℕ => (i : ℤ))).filter
          (fun x => decide (0 ≤ x + offset) && decide (x + offset < (s1.length : ℤ)) &&
            decide (x + offset < (s2.length : ℤ)) &&
            (pyGet s2 x == pyGet s1 (x + offset)))).toFinset.card := by rw [hsets]
    _ = (((List.range s2.length).map (fun i : ℕ => (i : ℤ))).filter
          (fun x => decide (0 ≤ x + offset) && decide (x + offset < (s1.length : ℤ)) &&
            decide (x + offset < (s2.length : ℤ)) &&
            (pyGet s2 x == pyGet s1 (x + offset)))).length :=
        List.toFinset_card_of_nodup nd2
    _ = specAgreeCountTrunc s1 s2 offset := by
        rw [List.filter_map, List.length_map]
        have hpq : List.filter
              ((fun x => decide (0 ≤ x + offset) && decide (x + offset < (s1.length : ℤ)) &&
                  decide (x + offset < (s2.length : ℤ)) &&
                  (pyGet s2 x == pyGet s1 (x + offset))) ∘ (fun i : ℕ => (i : ℤ)))
              (List.range s2.length)
            = List.filter
              (fun p : ℕ => decide (0 ≤ (p : ℤ) + offset) &&
                decide ((p : ℤ) + offset < (s1.length : ℤ)) &&
                decide ((p : ℤ) + offset < (s2.length : ℤ)) &&
                (pyGet s2 (p : ℤ) == pyGet s1 ((p : ℤ) + offset)))
              (List.range s2.length) :=
          List.filter_congr (fun i _ => rfl)
        rw [hpq]
        unfold specAgreeCountTrunc
        rfl

/-! ### Claims -/

/-- Claim C1, as stated, is false: for a pool of exactly one read the
recursion immediately calls `find_best_match` on an empty candidate list,
which raises (returns `none`) instead of returning the read unchanged. -/
theorem claim_C1_counterexample :
    assemble_helper [['A', 'T', 'C', 'G']] ≠ some ['A', 'T', 'C', 'G'] := by decide

/-- Claim C1 (corrected): for every pool of exactly one read, the top-level
assembly fails — `assemble` hits the `else` branch with an empty `others`,
and `max()` over the empty candidate generator raises a ValueError — rather
than returning the read. -/
theorem claim_C1 (r : Seq) : assemble_helper [r] = none := rfl

/-- Claim C2, as stated, is false: on two empty sequences `find_best_offset`
raises (the scanned offset range is empty, so `max()` raises ValueError), and
on `("", "AB")` it returns offset `-1`, not offset `0`. -/
theorem claim_C2_counterexample :
    find_best_offset [] [] = none ∧
      find_best_offset [] ['A', 'B'] = some (Match.mk 0 (-1) ['A', 'B'] []) := by decide

/-- Claim C2 (corrected): if either input sequence is empty, then when
`len(seq1) + len(seq2) ≤ 1` the scanned range is empty and `find_best_offset`
raises; otherwise it returns a Match with score 0 whose offset is
`len(seq1) - 1`, the largest scanned offset (not offset 0). -/
theorem claim_C2 (s1 s2 : Seq) (h : s1 = [] ∨ s2 = []) :
    (s1.length + s2.length ≤ 1 → find_best_offset s1 s2 = none) ∧
    (2 ≤ s1.length + s2.length → ∃ m, find_best_offset s1 s2 = some m ∧
      m.score = 0 ∧ m.offset = (s1.length : ℤ) - 1) := by
  constructor
  · intro hlen
    have hk : ((s1.length : ℤ) - (1 - (s2.length : ℤ))).toNat = 0 := by omega
    have hr : intRange (1 - (s2.length : ℤ)) ((s1.length : ℤ)) = [] := by
      simp [intRange, hk]
    show (intRange _ _).mapM _ >>= pyMaxList = none
    rw [hr]
    rfl
  · intro hlen
    have hne : 1 - (s2.length : ℤ) < (s1.length : ℤ) := by omega
    obtain ⟨m, hm, -, -, ⟨ho1, ho2⟩, hsc, hmax⟩ := fbo_spec s1 s2 hne
    have hkey := hmax ((s1.length : ℤ) - 1) (by omega) (by omega)
    have hoff : (s1.length : ℤ) - 1 ≤ m.offset := by
      apply key_le_offset ?_ hkey
      show scoreNat s1 s2 ((s1.length : ℤ) - 1) = m.score
      rw [hsc, scoreNat_of_empty h, scoreNat_of_empty h]
    refine ⟨m, hm, ?_, by omega⟩
    rw [hsc, scoreNat_of_empty h]

theorem claim_C2_witness :
    ∃ m, find_best_offset ([] : Seq) ['A', 'B'] = some m ∧
      m.score = 0 ∧ m.offset = ((([] : Seq).length : ℤ)) - 1 :=
  (claim_C2 [] ['A', 'B'] (Or.inl rfl)).2 (by decide)

/-- Claim C3, as stated, is false: at `seq1 = "AAAA"`, `seq2 = "AA"`,
`offset = 1` the code scores 1, while the number of positions in range for
both sequences that agree is 2 (the `len(seq2) - offset` term truncates the
scanned range). -/
theorem claim_C3_counterexample :
    ¬ score ['A', 'A', 'A', 'A'] ['A', 'A'] 1
        = some (specAgreeCount ['A', 'A', 'A', 'A'] ['A', 'A'] 1) := by decide

/-- Claim C3 (corrected): `score(seq1, seq2, offset)` equals the number of
positions `p` with `p` in range for `seq2`, `p + offset` in range for `seq1`,
**and additionally `p + offset < len(seq2)`** (the truncation imposed by the
code's range bound), at which `seq2[p]` equals `seq1[p + offset]` by exact
character equality; it never raises. -/
theorem claim_C3 (s1 s2 : Seq) (offset : ℤ) :
    score s1 s2 offset = some (specAgreeCountTrunc s1 s2 offset) := by
  rw [score_eq_scoreNat, scoreNat_eq_trunc]

/-- Claim C4 (confirmed): for every score `s`, sequences `A`, `B` and offset
in `[1 - len(A), len(B) - 1]`, the length of `consensus s off A B` is
`max(0, off) + len(A) + max(0, len(B) - (len(A) + off))`. -/
theorem claim_C4 (s : ℕ) (off : ℤ) (A B : Seq)
    (h1 : 1 - (A.length : ℤ) ≤ off) (h2 : off ≤ (B.length : ℤ) - 1) :
    ((consensus s off A B).length : ℤ)
      = max 0 off + (A.length : ℤ)
        + max 0 ((B.length : ℤ) - ((A.length : ℤ) + off)) :=
  length_consensus s off A B h1 h2

theorem claim_C4_witness :
    (((consensus 0 1 ['C', 'D'] ['A', 'B']).length : ℤ)
      = max 0 1 + (((['C', 'D'] : Seq)).length : ℤ)
        + max 0 ((((['A', 'B'] : Seq)).length : ℤ)
            - ((((['C', 'D'] : Seq)).length : ℤ) + 1))) :=
  claim_C4 0 1 ['C', 'D'] ['A', 'B'] (by decide) (by decide)

/-- Claim C5 (confirmed): for non-empty inputs, `find_best_offset` scans every
offset in `[1 - len(seq2), len(seq1) - 1]` and returns the Match maximizing
the ordered key `(score, offset, seq2, seq1)`: its offset lies in the range,
its score is the score at that offset and is at least the score at every
scanned offset, and its key dominates the key of every scanned offset. -/
theorem claim_C5 (s1 s2 : Seq) (h1 : s1 ≠ []) (h2 : s2 ≠ []) :
    ∃ m, find_best_offset s1 s2 = some m ∧ m.seq1 = s1 ∧ m.seq2 = s2 ∧
      1 - (s2.length : ℤ) ≤ m.offset ∧ m.offset ≤ (s1.length : ℤ) - 1 ∧
      m.score = scoreNat s1 s2 m.offset ∧
      ∀ offset : ℤ, 1 - (s2.length : ℤ) ≤ offset → offset ≤ (s1.length : ℤ) - 1 →
        scoreNat s1 s2 offset ≤ m.score ∧
        key (Match.mk (scoreNat s1 s2 offset) offset s2 s1) ≤ key m := by
  have l1 : 0 < s1.length := List.length_pos.mpr h1
  have l2 : 0 < s2.length := List.length_pos.mpr h2
  obtain ⟨m, hm, hf1, hf2, ⟨ho1, ho2⟩, hsc, hmax⟩ := fbo_spec s1 s2 (by omega)
  refine ⟨m, hm, hf1, hf2, ho1, by omega, hsc, ?_⟩
  intro off hh1 hh2
  have hkey := hmax off hh1 (by omega)
  have hscore := key_le_score hkey
  exact ⟨by simpa using hscore, hkey⟩

theorem claim_C5_witness :
    ∃ m, find_best_offset ['A', 'B'] ['B', 'C'] = some m ∧
      m.seq1 = ['A', 'B'] ∧ m.seq2 = ['B', 'C'] ∧
      1 - (((['B', 'C'] : Seq)).length : ℤ) ≤ m.offset ∧
      m.offset ≤ (((['A', 'B'] : Seq)).length : ℤ) - 1 ∧
      m.score = scoreNat ['A', 'B'] ['B', 'C'] m.offset ∧
      ∀ offset : ℤ, 1 - (((['B', 'C'] : Seq)).length : ℤ) ≤ offset →
        offset ≤ (((['A', 'B'] : Seq)).length : ℤ) - 1 →
        scoreNat ['A', 'B'] ['B', 'C'] offset ≤ m.score ∧
        key (Match.mk (scoreNat ['A', 'B'] ['B', 'C'] offset) offset ['B', 'C'] ['A', 'B'])
          ≤ key m :=
  claim_C5 ['A', 'B'] ['B', 'C'] (by decide) (by decide)

/-- Claim C6, as stated, is false: the pool `["", "X"]` has two pairwise
distinct reads and no consensus/remaining collision, yet assembly raises
(`find_best_offset` on the empty current sequence scans an empty range) and
yields no sequence. -/
theorem claim_C6_counterexample :
    2 ≤ ([[], ['X']] : List Seq).length ∧ ([[], ['X']] : List Seq).Nodup ∧
      (∀ st ∈ runStates 1 ([] : Seq) [['X']], st.1 ∉ st.2) ∧
      assemble_helper [[], ['X']] = none := by decide

/-- Claim C6 (corrected): for every pool of two or more pairwise-distinct
**non-empty** reads whose intermediate consensus values never coincide with a
remaining read, assembly succeeds, performs exactly `len(pool) - 1` merge
steps (one matched read removed per step), and the matched reads consumed are
exactly the non-seed reads, each exactly once. -/
theorem claim_C6 (r : Seq) (rs : List Seq) (hrs : rs ≠ [])
    (hnd : (r :: rs).Nodup) (hne : ∀ x ∈ r :: rs, x ≠ ([] : Seq))
    (hst : ∀ st ∈ runStates rs.length r rs, st.1 ∉ st.2) :
    ∃ s ms, assembleSteps rs.length r rs = some (s, ms) ∧
      assemble_helper (r :: rs) = some s ∧
      ms.length = (r :: rs).length - 1 ∧ ms.Perm rs := by
  have hr : r ≠ [] := hne r (by simp)
  have hnd2 : rs.Nodup := (List.nodup_cons.mp hnd).2
  obtain ⟨s, ms, h1, h2, h3⟩ := assembleSteps_total rs.length r rs rfl hrs hr
    (fun c hc => hne c (by simp [hc])) hnd2 hst
  refine ⟨s, ms, h1, ?_, by simp [h2], h3⟩
  show assembleF rs.length r rs = some s
  rw [assembleF_eq_steps, h1]
  rfl

theorem claim_C6_witness :
    ∃ s ms, assembleSteps 1 ['A', 'B'] [['B', 'C']] = some (s, ms) ∧
      assemble_helper [['A', 'B'], ['B', 'C']] = some s ∧
      ms.length = ([['A', 'B'], ['B', 'C']] : List Seq).length - 1 ∧
      ms.Perm [['B', 'C']] :=
  claim_C6 ['A', 'B'] [['B', 'C']] (by decide) (by decide) (by decide) (by decide)

/-- Claim C7 (confirmed): at every reduction step of `assemble` (non-final
branch, successful best match `m`), the recursion continues on exactly
`others.filter (· != m.seq2)`: an order-preserving sublist of the old
remaining list that drops every element equal by value to the matched
sequence and keeps the multiplicity of every other value. -/
theorem claim_C7 (fuel : ℕ) (sequence : Seq) (others : List Seq) (m : Match)
    (hlen : others.length ≠ 1) (hm : find_best_match sequence others = some m) :
    assembleF (fuel + 1) sequence others
        = assembleF fuel (consensus m.score m.offset m.seq2 m.seq1)
            (others.filter (fun y => y != m.seq2)) ∧
      (others.filter (fun y => y != m.seq2)).Sublist others ∧
      (∀ y ∈ others.filter (fun y => y != m.seq2), y ≠ m.seq2) ∧
      (∀ x : Seq, x ≠ m.seq2 →
        (others.filter (fun y => y != m.seq2)).count x = others.count x) := by
  refine ⟨?_, List.filter_sublist others, ?_, ?_⟩
  · simp only [assembleF, if_neg hlen, hm, Option.some_bind]
  · intro y hy
    exact bne_iff_ne.mp (List.mem_filter.mp hy).2
  · intro x hx
    exact List.count_filter (bne_iff_ne.mpr hx)

theorem claim_C7_witness :
    assembleF 3 ['A'] [['B'], ['C']]
        = assembleF 2
            (consensus (Match.mk 0 0 ['C'] ['A']).score (Match.mk 0 0 ['C'] ['A']).offset
              (Match.mk 0 0 ['C'] ['A']).seq2 (Match.mk 0 0 ['C'] ['A']).seq1)
            ([['B'], ['C']].filter (fun y => y != (Match.mk 0 0 ['C'] ['A']).seq2)) ∧
      ([['B'], ['C']].filter (fun y => y != (Match.mk 0 0 ['C'] ['A']).seq2)).Sublist
        [['B'], ['C']] ∧
      (∀ y ∈ [['B'], ['C']].filter (fun y => y != (Match.mk 0 0 ['C'] ['A']).seq2),
        y ≠ (Match.mk 0 0 ['C'] ['A']).seq2) ∧
      (∀ x : Seq, x ≠ (Match.mk 0 0 ['C'] ['A']).seq2 →
        ([['B'], ['C']].filter (fun y => y != (Match.mk 0 0 ['C'] ['A']).seq2)).count x
          = ([['B'], ['C']] : List Seq).count x) :=
  claim_C7 2 ['A'] [['B'], ['C']] (Match.mk 0 0 ['C'] ['A']) (by decide) (by decide)

/-- Claim C8 (confirmed): `find_best_match` considers exactly the candidates
differing in value from `sequence`; when every candidate equals `sequence` it
raises (returns `none`) rather than returning a Match; when some candidate
differs (and each per-candidate `find_best_offset` is defined, as it is for
non-empty sequences), it returns the key-maximum of `find_best_offset` over
exactly those candidates. -/
theorem claim_C8 (sequence : Seq) (others : List Seq) :
    ((∀ c ∈ others, c = sequence) → find_best_match sequence others = none) ∧
    (others.filter (fun c => c != sequence) ≠ [] →
      (∀ c ∈ others.filter (fun c => c != sequence),
        ∃ m, find_best_offset sequence c = some m) →
      ∃ m, find_best_match sequence others = some m ∧
        (∃ c ∈ others.filter (fun c => c != sequence),
          find_best_offset sequence c = some m) ∧
        (∀ c ∈ others.filter (fun c => c != sequence), ∀ m2,
          find_best_offset sequence c = some m2 → key m2 ≤ key m)) := by
  constructor
  · intro hall
    exact fbm_none (filter_bne_of_all_eq hall)
  · intro hne hall
    exact fbm_spec sequence others hne hall

theorem claim_C8_witness :
    ∃ m, find_best_match ['A'] [['B'], ['C']] = some m ∧
      (∃ c ∈ [['B'], ['C']].filter (fun c => c != ['A']),
        find_best_offset ['A'] c = some m) ∧
      (∀ c ∈ [['B'], ['C']].filter (fun c => c != ['A']), ∀ m2,
        find_best_offset ['A'] c = some m2 → key m2 ≤ key m) :=
  (claim_C8 ['A'] [['B'], ['C']]).2 (by decide)
    (fun c hc => by
      fin_cases hc
      · exact ⟨Match.mk 0 0 ['B'] ['A'], by decide⟩
      · exact ⟨Match.mk 0 0 ['C'] ['A'], by decide⟩)

/-- Claim C9 (confirmed): for all sequences `A`, `B` and every offset in the
scanned range `[1 - len(B), len(A) - 1]`, the score is defined and satisfies
`0 ≤ score(A, B, offset) ≤ min(len(A), len(B))`. -/
theorem claim_C9 (A B : Seq) (offset : ℤ)
    (h1 : 1 - (B.length : ℤ) ≤ offset) (h2 : offset ≤ (A.length : ℤ) - 1) :
    ∃ s, score A B offset = some s ∧ 0 ≤ s ∧ s ≤ min A.length B.length :=
  ⟨scoreNat A B offset, score_eq_scoreNat A B offset, Nat.zero_le _,
    scoreNat_le_min A B offset⟩

theorem claim_C9_witness :
    ∃ s, score ['A', 'B'] ['B'] 0 = some s ∧ 0 ≤ s ∧
      s ≤ min (['A', 'B'] : Seq).length (['B'] : Seq).length :=
  claim_C9 ['A', 'B'] ['B'] 0 (by decide) (by decide)

/-- Claim C10 (confirmed): for every pair of sequences and every integer
offset, each position compared by `score` is in bounds for both sequences, so
the Option-returning embedding never takes the out-of-range branch and
`score` always returns a value. -/
theorem claim_C10 (s1 s2 : Seq) (offset : ℤ) :
    (∀ p ∈ scorePositions s1 s2 offset,
      0 ≤ p ∧ p < (s2.length : ℤ) ∧ 0 ≤ p + offset ∧ p + offset < (s1.length : ℤ)) ∧
    score s1 s2 offset = some (scoreNat s1 s2 offset) := by
  refine ⟨fun p hp => ?_, score_eq_scoreNat s1 s2 offset⟩
  have hb := scorePositions_bounds hp
  exact ⟨hb.1, hb.2.1, hb.2.2.1, hb.2.2.2.1⟩

theorem claim_C10_witness :
    (∀ p ∈ scorePositions ['A', 'C'] ['A'] 0,
      0 ≤ p ∧ p < ((['A'] : Seq).length : ℤ) ∧ 0 ≤ p + 0 ∧
        p + 0 < ((['A', 'C'] : Seq).length : ℤ)) ∧
    score ['A', 'C'] ['A'] 0 = some (scoreNat ['A', 'C'] ['A'] 0) :=
  claim_C10 ['A', 'C'] ['A'] 0

end TinyAssembler
